import Mathlib

/-!
Shallow embedding of `paramiko/message.py` (the SSH2 `Message` codec).

Bytes are modelled as lists of naturals (each value below 256 in
well-formed data).  Python's `io.BytesIO` is modelled faithfully as
`ByteStream`: it has a single shared stream position used by both `read`
and `write`; `write` overwrites bytes at the current position and extends
the underlying data when writing past the end.  Mutating methods of
`Message` are modelled as state transformers returning the new `Message`
(for `return self`) or a pair of result value and new `Message` (for the
`get_*` readers).
-/

namespace Paramiko

/-- A byte string: a list of naturals, each below 256 in well-formed data. -/
abbrev Bytes := List Nat

/-- Model of a Python `io.BytesIO` object: the underlying byte buffer and
the single shared stream position. -/
structure ByteStream where
  data : Bytes
  pos : Nat
deriving DecidableEq, Repr

namespace ByteStream

/-- Model of `BytesIO(b)` / `BytesIO()`: a fresh stream positioned at 0. -/
def mkStream (content : Bytes) : ByteStream := ⟨content, 0⟩

/-- Model of `stream.read(n)`: return up to `n` bytes from the current
position and advance the position by the number of bytes actually read. -/
def read (st : ByteStream) (n : Nat) : Bytes × ByteStream :=
  let b := (st.data.drop st.pos).take n
  (b, ⟨st.data, st.pos + b.length⟩)

/-- Model of `stream.read()`: read everything from the current position to
the end. -/
def readAll (st : ByteStream) : Bytes × ByteStream :=
  let b := st.data.drop st.pos
  (b, ⟨st.data, st.pos + b.length⟩)

/-- Model of `stream.write(b)`: overwrite the bytes at the current
position with `b`, zero-filling any gap if the position is past the end,
and advance the position past the written bytes. -/
def write (st : ByteStream) (b : Bytes) : ByteStream :=
  ⟨st.data.take st.pos ++ List.replicate (st.pos - st.data.length) 0
    ++ b ++ st.data.drop (st.pos + b.length),
   st.pos + b.length⟩

/-- Model of `stream.tell()`. -/
def tell (st : ByteStream) : Nat := st.pos

/-- Model of `stream.seek(k)` (absolute). -/
def seek (st : ByteStream) (k : Nat) : ByteStream := ⟨st.data, k⟩

/-- Model of `stream.getvalue()`. -/
def getvalue (st : ByteStream) : Bytes := st.data

end ByteStream

/-!
Collaborators from `paramiko.common` and `paramiko.util`.  These modules
are not part of this fragment's source; their behaviour is taken from the
specification's collaborator contracts.
-/

/-- Constant `paramiko.common.zero_byte`: the single byte `0x00`. -/
def zero_byte : Nat := 0x00

/-- Constant `paramiko.common.one_byte`: the single byte `0x01`. -/
def one_byte : Nat := 0x01

/-- Constant `paramiko.common.max_byte`: the single byte `0xff`. -/
def max_byte : Nat := 0xff

namespace util

/-- Fuelled minimal big-endian base-256 digit computation: one unit of
fuel allows one emitted digit.  The recursion is structural on the fuel so
that concrete values compute inside the kernel. -/
def natBytesBEAux : Nat → Nat → Bytes
  | _, 0 => []
  | 0, _ + 1 => []
  | fuel + 1, n + 1 => natBytesBEAux fuel ((n + 1) / 256) ++ [(n + 1) % 256]

/-- Minimal big-endian base-256 digits of a natural number; `0 ↦ []`.
Fuel `n` always suffices since each digit consumes a factor of 256. -/
def natBytesBE (n : Nat) : Bytes := natBytesBEAux n n

/-- Modelled from the spec: `paramiko.util.deflate_long(n)` (missing from
this fragment's source) encodes a non-negative integer as the minimal
big-endian two's-complement byte sequence, prepending a zero byte when the
natural encoding's most significant bit is set, and encodes 0 as the empty
byte sequence.  Only the non-negative case is modelled, matching the
layer's documented contract (`add_mpint` works only on positive numbers). -/
def deflate_long (n : Nat) : Bytes :=
  match natBytesBE n with
  | [] => []
  | b :: rest => if 0x80 ≤ b then 0 :: b :: rest else b :: rest

/-- Big-endian value of a byte sequence (fold with base 256). -/
def beValue (bs : Bytes) : Nat := bs.foldl (fun acc b => acc * 256 + b) 0

/-- Modelled from the spec: `paramiko.util.inflate_long(bytes)` (missing
from this fragment's source) is the inverse of `deflate_long`; the empty
input decodes to 0.  Only non-negative results arise for the inputs this
layer produces, so the two's-complement sign case is not modelled. -/
def inflate_long (bs : Bytes) : Nat := beValue bs

/-- Model of `struct.pack(">I", n)`: the 4 big-endian bytes of `n`; Python
only defines it for `0 ≤ n < 2^32` (out of range raises `struct.error`). -/
def pack32 (n : Nat) : Bytes :=
  [n / 2 ^ 24 % 256, n / 2 ^ 16 % 256, n / 2 ^ 8 % 256, n % 256]

/-- Model of `struct.pack(">Q", n)`: the 8 big-endian bytes of `n`; Python
only defines it for `0 ≤ n < 2^64`. -/
def pack64 (n : Nat) : Bytes :=
  [n / 2 ^ 56 % 256, n / 2 ^ 48 % 256, n / 2 ^ 40 % 256, n / 2 ^ 32 % 256,
   n / 2 ^ 24 % 256, n / 2 ^ 16 % 256, n / 2 ^ 8 % 256, n % 256]

/-- Model of `struct.unpack(">I", b)[0]` on a 4-byte input (and `">Q"` on
an 8-byte input): the big-endian value of the bytes. -/
def unpackBE (bs : Bytes) : Nat := beValue bs

/-- Model of `paramiko.util.asbytes`: it normalizes text-like inputs to
raw bytes; strings are modelled at the byte level already, so it is the
identity. -/
def asbytes (s : Bytes) : Bytes := s

/-- Model of `paramiko.util.u`: it decodes raw bytes as UTF-8 text.  Text
is modelled at the byte level (UTF-8 code units), on which `u` is the
identity; the comma byte `0x2C` never occurs inside a multi-byte UTF-8
sequence, so the byte-level comma split below agrees with Python's split
on decoded text. -/
def u (s : Bytes) : Bytes := s

/-- Model of Python `str.split(",")`: split a byte string on the comma
byte `0x2C`; the empty string yields a single empty field, and empty
fields are kept. -/
def splitComma : Bytes → List Bytes
  | [] => [[]]
  | b :: rest =>
    let r := splitComma rest
    if b = 0x2C then [] :: r
    else
      match r with
      | t :: ts => (b :: t) :: ts
      | [] => [[b]]

/-- Model of Python `",".join(l)`: interleave the comma byte between the
elements. -/
def joinComma (l : List Bytes) : Bytes := List.intercalate [0x2C] l

end util

/-- Class `paramiko.message.Message`: a wrapper around a `BytesIO` packet. -/
structure Message where
  packet : ByteStream
deriving DecidableEq, Repr

namespace Message

/-- Threshold `Message.big_int = 0xff000000` for the adaptive-int codec. -/
def big_int : Nat := 0xff000000

/-- Constructor `Message(content)`: build a message over the given byte
stream. -/
def ofBytes (content : Bytes) : Message := ⟨ByteStream.mkStream content⟩

/-- Constructor `Message()`: build an empty message. -/
def empty : Message := ⟨ByteStream.mkStream []⟩

/-- Method `asbytes()`: the full byte content of the message. -/
def asbytes (m : Message) : Bytes := m.packet.getvalue

/-- Method `rewind()`: reset the cursor to the beginning. -/
def rewind (m : Message) : Message := ⟨m.packet.seek 0⟩

/-- Method `get_remainder()`: the not-yet-parsed bytes; peeks and restores
the stream position. -/
def get_remainder (m : Message) : Bytes × Message :=
  let position := m.packet.tell
  let (remainder, p1) := m.packet.readAll
  (remainder, ⟨p1.seek position⟩)

/-- Method `get_so_far()`: the already-parsed bytes; rewinds, then reads
back up to the saved position. -/
def get_so_far (m : Message) : Bytes × Message :=
  let position := m.packet.tell
  let p1 := m.packet.seek 0
  let (b, p2) := p1.read position
  (b, ⟨p2⟩)

/-- Method `get_bytes(n)`: read up to `n` bytes; when fewer were available
and `n` is below the 1 MB ceiling, zero-pad the result to exactly `n`
bytes. -/
def get_bytes (m : Message) (n : Nat) : Bytes × Message :=
  let (b, p) := m.packet.read n
  let max_pad_size := 1 <<< 20
  if b.length < n ∧ n < max_pad_size then
    (b ++ List.replicate (n - b.length) zero_byte, ⟨p⟩)
  else
    (b, ⟨p⟩)

/-- Method `get_byte()`: equivalent to `get_bytes(1)`. -/
def get_byte (m : Message) : Bytes × Message := m.get_bytes 1

/-- Method `get_boolean()`: one byte, true iff it is not `0x00`. -/
def get_boolean (m : Message) : Bool × Message :=
  let (b, m1) := m.get_bytes 1
  (b ≠ [zero_byte], m1)

/-- Method `get_int()`: 4 bytes, big-endian. -/
def get_int (m : Message) : Nat × Message :=
  let (b, m1) := m.get_bytes 4
  (util.unpackBE b, m1)

/-- Method `get_int64()`: 8 bytes, big-endian. -/
def get_int64 (m : Message) : Nat × Message :=
  let (b, m1) := m.get_bytes 8
  (util.unpackBE b, m1)

/-- Method `get_string()`: a 4-byte big-endian length, then that many
bytes. -/
def get_string (m : Message) : Bytes × Message :=
  let (n, m1) := m.get_int
  m1.get_bytes n

/-- Method `get_binary()`: same body as `get_string` in the source. -/
def get_binary (m : Message) : Bytes × Message :=
  let (n, m1) := m.get_int
  m1.get_bytes n

/-- Method `get_adaptive_int()`: one byte; `0xff` delegates to the mpint
decoder, anything else is the first byte of a plain 4-byte big-endian
integer. -/
def get_adaptive_int (m : Message) : Nat × Message :=
  let (byte, m1) := m.get_bytes 1
  if byte = [max_byte] then
    let (s, m2) := m1.get_binary
    (util.inflate_long s, m2)
  else
    let (rest, m2) := m1.get_bytes 3
    (util.unpackBE (byte ++ rest), m2)

/-- Method `get_mpint()`: mpint decode of a length-prefixed payload. -/
def get_mpint (m : Message) : Nat × Message :=
  let (s, m1) := m.get_binary
  (util.inflate_long s, m1)

/-- Method `get_text()`: the string payload decoded as UTF-8 text. -/
def get_text (m : Message) : Bytes × Message :=
  let (s, m1) := m.get_string
  (util.u s, m1)

/-- Method `get_list()`: the text payload split on commas. -/
def get_list (m : Message) : List Bytes × Message :=
  let (t, m1) := m.get_text
  (util.splitComma t, m1)

/-- Method `add_bytes(b)`: write raw bytes, return `self`. -/
def add_bytes (m : Message) (b : Bytes) : Message :=
  ⟨m.packet.write b⟩

/-- Method `add_byte(b)`: write a single raw byte, return `self`. -/
def add_byte (m : Message) (b : Bytes) : Message :=
  ⟨m.packet.write b⟩

/-- Method `add_boolean(b)`: write `one_byte` or `zero_byte`, return
`self`. -/
def add_boolean (m : Message) (b : Bool) : Message :=
  if b then ⟨m.packet.write [one_byte]⟩ else ⟨m.packet.write [zero_byte]⟩

/-- Method `add_int(n)`: write 4 big-endian bytes, return `self`. -/
def add_int (m : Message) (n : Nat) : Message :=
  ⟨m.packet.write (util.pack32 n)⟩

/-- Method `add_string(s)`: write a 4-byte big-endian length then the
bytes, return `self`. -/
def add_string (m : Message) (s : Bytes) : Message :=
  let s' := util.asbytes s
  let m1 := m.add_int s'.length
  ⟨m1.packet.write s'⟩

/-- Method `add_adaptive_int(n)`: plain 4 bytes below `big_int`, else
marker byte `0xff` then the length-prefixed mpint encoding; return
`self`. -/
def add_adaptive_int (m : Message) (n : Nat) : Message :=
  if big_int ≤ n then
    let m1 : Message := ⟨m.packet.write [max_byte]⟩
    m1.add_string (util.deflate_long n)
  else
    ⟨m.packet.write (util.pack32 n)⟩

/-- Method `add_int64(n)`: write 8 big-endian bytes, return `self`. -/
def add_int64 (m : Message) (n : Nat) : Message :=
  ⟨m.packet.write (util.pack64 n)⟩

/-- Method `add_mpint(z)`: length-prefixed mpint encoding, return `self`. -/
def add_mpint (m : Message) (z : Nat) : Message :=
  m.add_string (util.deflate_long z)

/-- Method `add_list(l)`: the comma-joined elements as a single string,
return `self`. -/
def add_list (m : Message) (l : List Bytes) : Message :=
  m.add_string (util.joinComma l)

/-- Runtime kinds the generic `add` dispatches over, as a closed variant:
Python `bool`, non-bool `int`, `list`, and everything else (treated as a
string). -/
inductive AddValue where
  | bool (b : Bool)
  | int (n : Nat)
  | list (l : List Bytes)
  | str (s : Bytes)
deriving DecidableEq, Repr

/-- Method `_add(i)`: dispatch by runtime kind, in source order: `bool`
first, then `int`, then `list`, else string. -/
def _add (m : Message) (i : AddValue) : Message :=
  match i with
  | .bool b => m.add_boolean b
  | .int n => m.add_adaptive_int n
  | .list l => m.add_list l
  | .str s => m.add_string s

/-- Method `add(*seq)`: `_add` each item of the sequence in order. -/
def add (m : Message) (seq : List AddValue) : Message :=
  seq.foldl _add m

end Message


/-!
Helper lemmas about the embedded definitions.
-/

namespace util

theorem natBytesBEAux_congr (f f' n : Nat) (hf : n ≤ f) (hf' : n ≤ f') :
    natBytesBEAux f n = natBytesBEAux f' n := by
  induction f generalizing f' n with
  | zero =>
    have hn : n = 0 := by omega
    subst hn
    simp [natBytesBEAux]
  | succ f ih =>
    cases n with
    | zero => simp [natBytesBEAux]
    | succ m =>
      cases f' with
      | zero => omega
      | succ g =>
        simp only [natBytesBEAux]
        rw [ih g ((m + 1) / 256) (by omega) (by omega)]

theorem natBytesBE_succ (n : Nat) :
    natBytesBE (n + 1) = natBytesBE ((n + 1) / 256) ++ [(n + 1) % 256] := by
  show natBytesBEAux (n + 1) (n + 1) = _
  simp only [natBytesBEAux]
  rw [natBytesBEAux_congr n ((n + 1) / 256) ((n + 1) / 256) (by omega) (by omega)]
  rfl

theorem beValue_cons_zero (bs : Bytes) : beValue (0 :: bs) = beValue bs := by
  simp [beValue]

theorem beValue_append_single (xs : Bytes) (d : Nat) :
    beValue (xs ++ [d]) = beValue xs * 256 + d := by
  simp [beValue]

theorem beValue_natBytesBE (n : Nat) : beValue (natBytesBE n) = n := by
  induction n using Nat.strong_induction_on with
  | _ n ih =>
    cases n with
    | zero => simp [natBytesBE, natBytesBEAux, beValue]
    | succ m =>
      rw [natBytesBE_succ, beValue_append_single,
        ih ((m + 1) / 256) (Nat.div_lt_self (Nat.succ_pos m) (by omega))]
      omega

theorem inflate_long_deflate_long (n : Nat) : inflate_long (deflate_long n) = n := by
  have h := beValue_natBytesBE n
  unfold deflate_long
  cases heq : natBytesBE n with
  | nil =>
    rw [heq] at h
    simpa [inflate_long, beValue] using h
  | cons b rest =>
    rw [heq] at h
    by_cases hb : 0x80 ≤ b
    · simp only [if_pos hb, inflate_long, beValue_cons_zero]
      exact h
    · simp only [if_neg hb, inflate_long]
      exact h

theorem unpackBE_pack32 (n : Nat) (h : n < 2 ^ 32) : unpackBE (pack32 n) = n := by
  simp [unpackBE, beValue, pack32]
  omega

theorem pack32_length (n : Nat) : (pack32 n).length = 4 := by
  simp [pack32]

end util

/-- Dropping past a prefix of known length lands in the suffix. -/
theorem drop_append_add {α : Type} (l1 l2 : List α) (n k : Nat) (h : l1.length = n) :
    (l1 ++ l2).drop (n + k) = l2.drop k := by
  subst h
  simp

namespace ByteStream

theorem write_at_end (st : ByteStream) (b : Bytes) (h : st.pos = st.data.length) :
    st.write b = ⟨st.data ++ b, st.data.length + b.length⟩ := by
  have h1 : st.data.drop (st.pos + b.length) = [] :=
    List.drop_eq_nil_of_le (by omega)
  simp [write, h, h1, List.take_length]

theorem write_write (st : ByteStream) (a b : Bytes) :
    (st.write a).write b = st.write (a ++ b) := by
  have hF : ((st.data.take st.pos ++ List.replicate (st.pos - st.data.length) 0) ++ a).length
      = st.pos + a.length := by
    simp [List.length_take]
    omega
  simp only [write]
  congr 1
  · rw [List.take_left' hF]
    have hz : st.pos + a.length
        - (((st.data.take st.pos ++ List.replicate (st.pos - st.data.length) 0) ++ a)
            ++ st.data.drop (st.pos + a.length)).length = 0 := by
      rw [List.length_append, hF]
      omega
    rw [hz, List.replicate_zero]
    rw [drop_append_add _ _ _ b.length hF]
    rw [List.drop_drop]
    have hidx : st.pos + (a ++ b).length = st.pos + a.length + b.length := by
      simp [List.length_append]
      omega
    rw [hidx]
    simp [List.append_assoc]
  · simp [List.length_append]
    omega

end ByteStream


namespace Message

theorem get_bytes_exact (m : Message) (n : Nat)
    (h : n + m.packet.pos ≤ m.packet.data.length) :
    m.get_bytes n = ((m.packet.data.drop m.packet.pos).take n,
      ⟨⟨m.packet.data, m.packet.pos + n⟩⟩) := by
  have hlen : ((m.packet.data.drop m.packet.pos).take n).length = n := by
    simp [List.length_take, List.length_drop]
    omega
  simp [get_bytes, ByteStream.read, hlen]

theorem get_so_far_spec (m : Message)
    (hpos : m.packet.pos ≤ m.packet.data.length) :
    m.get_so_far = (m.packet.data.take m.packet.pos, m) := by
  have hlen : (m.packet.data.take m.packet.pos).length = m.packet.pos := by
    simp [List.length_take]
    omega
  obtain ⟨⟨data, pos⟩⟩ := m
  simp_all [get_so_far, ByteStream.seek, ByteStream.tell, ByteStream.read]

theorem get_remainder_spec (m : Message) :
    m.get_remainder = (m.packet.data.drop m.packet.pos, m) := by
  obtain ⟨⟨data, pos⟩⟩ := m
  simp [get_remainder, ByteStream.readAll, ByteStream.seek, ByteStream.tell]

theorem get_bytes_short (m : Message) (n : Nat)
    (hpos : m.packet.pos ≤ m.packet.data.length)
    (h : m.packet.data.length - m.packet.pos < n) :
    m.get_bytes n
      = (if n < 1048576 then
          m.packet.data.drop m.packet.pos
            ++ List.replicate (n - (m.packet.data.length - m.packet.pos)) 0
         else m.packet.data.drop m.packet.pos,
        ⟨⟨m.packet.data, m.packet.data.length⟩⟩) := by
  have hdlen : (m.packet.data.drop m.packet.pos).length
      = m.packet.data.length - m.packet.pos := by
    simp [List.length_drop]
  have htake : (m.packet.data.drop m.packet.pos).take n
      = m.packet.data.drop m.packet.pos :=
    List.take_of_length_le (by omega)
  have hshift : (1 <<< 20 : Nat) = 1048576 := rfl
  simp only [get_bytes, ByteStream.read, htake, hdlen, hshift]
  by_cases hc : n < 1048576
  · rw [if_pos ⟨h, hc⟩, if_pos hc]
    simp [zero_byte]
    omega
  · rw [if_neg (by omega), if_neg hc]
    simp
    omega

theorem add_string_eq (m : Message) (s : Bytes) :
    m.add_string s = ⟨m.packet.write (util.pack32 s.length ++ s)⟩ := by
  simp [add_string, add_int, util.asbytes, ByteStream.write_write]

theorem add_mpint_eq (m : Message) (z : Nat) :
    m.add_mpint z = ⟨m.packet.write
      (util.pack32 (util.deflate_long z).length ++ util.deflate_long z)⟩ := by
  rw [add_mpint, add_string_eq]

theorem add_list_eq (m : Message) (l : List Bytes) :
    m.add_list l = ⟨m.packet.write
      (util.pack32 (util.joinComma l).length ++ util.joinComma l)⟩ := by
  rw [add_list, add_string_eq]

theorem add_boolean_eq (m : Message) (b : Bool) :
    m.add_boolean b = ⟨m.packet.write [if b then one_byte else zero_byte]⟩ := by
  cases b <;> simp [add_boolean]

theorem add_adaptive_int_eq (m : Message) (n : Nat) :
    m.add_adaptive_int n = ⟨m.packet.write
      (if big_int ≤ n then
        max_byte :: (util.pack32 (util.deflate_long n).length ++ util.deflate_long n)
       else util.pack32 n)⟩ := by
  by_cases h : big_int ≤ n
  · rw [add_adaptive_int, if_pos h, if_pos h]
    show (Message.mk (m.packet.write [max_byte])).add_string _ = _
    rw [add_string_eq]
    show Message.mk ((m.packet.write [max_byte]).write _) = _
    rw [ByteStream.write_write]
    rfl
  · rw [add_adaptive_int, if_neg h, if_neg h]

theorem mk_write_at_end (m : Message) (w : Bytes)
    (hpos : m.packet.pos = m.packet.data.length) :
    Message.mk (m.packet.write w) = ⟨⟨m.asbytes ++ w, (m.asbytes ++ w).length⟩⟩ := by
  rw [ByteStream.write_at_end m.packet w hpos]
  simp [asbytes, ByteStream.getvalue]

theorem get_binary_at (D pre s : Bytes) (hD : D = pre ++ (util.pack32 s.length ++ s))
    (hs : s.length < 2 ^ 32) :
    (Message.mk ⟨D, pre.length⟩).get_binary
      = (s, ⟨⟨D, pre.length + 4 + s.length⟩⟩) := by
  subst hD
  have h4 : (Message.mk ⟨pre ++ (util.pack32 s.length ++ s), pre.length⟩).get_bytes 4
      = (util.pack32 s.length,
        ⟨⟨pre ++ (util.pack32 s.length ++ s), pre.length + 4⟩⟩) := by
    rw [get_bytes_exact]
    · congr 1
      show (List.drop pre.length (pre ++ (util.pack32 s.length ++ s))).take 4 = _
      rw [List.drop_left, List.take_left' (util.pack32_length s.length)]
    · simp [util.pack32]
      omega
  have h5 : (Message.mk ⟨pre ++ (util.pack32 s.length ++ s), pre.length + 4⟩).get_bytes
        s.length
      = (s, ⟨⟨pre ++ (util.pack32 s.length ++ s), pre.length + 4 + s.length⟩⟩) := by
    rw [get_bytes_exact]
    · congr 1
      show (List.drop (pre.length + 4) (pre ++ (util.pack32 s.length ++ s))).take
          s.length = _
      rw [drop_append_add pre _ pre.length 4 rfl,
        List.drop_left' (util.pack32_length s.length), List.take_length]
    · simp [util.pack32]
      omega
  simp only [get_binary, get_int, h4, util.unpackBE_pack32 s.length hs, h5]

theorem get_adaptive_marker (s : Bytes) (hs : s.length < 2 ^ 32) :
    (Message.ofBytes (max_byte :: (util.pack32 s.length ++ s))).get_adaptive_int
      = (util.inflate_long s,
        ⟨⟨max_byte :: (util.pack32 s.length ++ s), 5 + s.length⟩⟩) := by
  have h1 : (Message.ofBytes (max_byte :: (util.pack32 s.length ++ s))).get_bytes 1
      = ([max_byte], ⟨⟨max_byte :: (util.pack32 s.length ++ s), 1⟩⟩) := by
    rw [get_bytes_exact]
    · simp [ofBytes, ByteStream.mkStream]
    · simp [ofBytes, ByteStream.mkStream]
  have h2 := get_binary_at (max_byte :: (util.pack32 s.length ++ s)) [max_byte] s
    (by simp) hs
  simp only [ofBytes, ByteStream.mkStream] at h1 ⊢
  simp only [get_adaptive_int, h1, if_pos rfl]
  simp only [List.length_cons, List.length_nil] at h2
  simp only [h2]
  simp

theorem get_adaptive_plain (n : Nat) (hn : n < 0xff000000) :
    (Message.ofBytes (util.pack32 n)).get_adaptive_int = (n, ⟨⟨util.pack32 n, 4⟩⟩) := by
  have h1 : (Message.ofBytes (util.pack32 n)).get_bytes 1
      = ([n / 2 ^ 24 % 256], ⟨⟨util.pack32 n, 1⟩⟩) := by
    rw [get_bytes_exact]
    · simp [ofBytes, ByteStream.mkStream, util.pack32]
    · simp [ofBytes, ByteStream.mkStream, util.pack32]
  have h2 : (Message.mk ⟨util.pack32 n, 1⟩).get_bytes 3
      = ([n / 2 ^ 16 % 256, n / 2 ^ 8 % 256, n % 256], ⟨⟨util.pack32 n, 4⟩⟩) := by
    rw [get_bytes_exact]
    · simp [util.pack32]
    · simp [util.pack32]
  have hne : ([n / 2 ^ 24 % 256] : Bytes) ≠ [max_byte] := by
    simp [max_byte]
    omega
  simp only [ofBytes, ByteStream.mkStream] at h1 ⊢
  simp only [get_adaptive_int, h1, if_neg hne, h2]
  have hval : util.unpackBE ([n / 2 ^ 24 % 256]
      ++ [n / 2 ^ 16 % 256, n / 2 ^ 8 % 256, n % 256]) = n := by
    simp [util.unpackBE, util.beValue]
    omega
  rw [hval]

theorem deflate_long_ne_nil (n : Nat) (h : 0 < n) : util.deflate_long n ≠ [] := by
  cases n with
  | zero => omega
  | succ m =>
    unfold util.deflate_long
    cases heq : util.natBytesBE (m + 1) with
    | nil =>
      have hb := util.beValue_natBytesBE (m + 1)
      rw [heq] at hb
      simp [util.beValue] at hb
    | cons b rest =>
      by_cases hb : 0x80 ≤ b <;> simp [hb]

end Message


/-!
Theorems settling the claims.
-/

namespace Message

/-- C1: for `get_bytes(n)` on a buffer with `k` unread bytes: if `k < n`
and `n` is below the 1 MB ceiling, the result is the `k` available bytes
followed by `n - k` zero bytes (exactly `n` bytes) and the cursor advances
by `k`; if `k < n` and `n` is at or above the ceiling, the `k` available
bytes are returned unpadded; if `k ≥ n`, the next `n` bytes are returned
and the cursor advances by `n`. -/
theorem get_bytes_padding (m : Message) (n : Nat)
    (hpos : m.packet.pos ≤ m.packet.data.length) :
    (m.packet.data.length - m.packet.pos < n → n < 1048576 →
      m.get_bytes n
        = (m.packet.data.drop m.packet.pos
            ++ List.replicate (n - (m.packet.data.length - m.packet.pos)) 0,
          ⟨⟨m.packet.data,
            m.packet.pos + (m.packet.data.length - m.packet.pos)⟩⟩)
        ∧ (m.get_bytes n).1.length = n)
    ∧ (m.packet.data.length - m.packet.pos < n → 1048576 ≤ n →
      m.get_bytes n = (m.packet.data.drop m.packet.pos,
        ⟨⟨m.packet.data,
          m.packet.pos + (m.packet.data.length - m.packet.pos)⟩⟩))
    ∧ (n ≤ m.packet.data.length - m.packet.pos →
      m.get_bytes n = ((m.packet.data.drop m.packet.pos).take n,
        ⟨⟨m.packet.data, m.packet.pos + n⟩⟩)) := by
  have hadv : m.packet.pos + (m.packet.data.length - m.packet.pos)
      = m.packet.data.length := by omega
  refine ⟨fun h1 h2 => ?_, fun h1 h2 => ?_, fun h1 => ?_⟩
  · rw [get_bytes_short m n hpos h1, if_pos h2, hadv]
    refine ⟨rfl, ?_⟩
    simp [List.length_drop]
    omega
  · rw [get_bytes_short m n hpos h1, if_neg (by omega), hadv]
  · exact get_bytes_exact m n (by omega)

theorem get_bytes_padding_witness :
    (Message.ofBytes [1, 2, 3]).packet.pos
        ≤ (Message.ofBytes [1, 2, 3]).packet.data.length
    ∧ (Message.ofBytes [1, 2, 3]).get_bytes 10
        = ([1, 2, 3, 0, 0, 0, 0, 0, 0, 0], ⟨⟨[1, 2, 3], 3⟩⟩)
    ∧ ((Message.ofBytes [1, 2, 3]).get_bytes 10).1.length = 10
    ∧ (Message.ofBytes [1, 2, 3]).get_bytes 1048576 = ([1, 2, 3], ⟨⟨[1, 2, 3], 3⟩⟩)
    ∧ (Message.ofBytes [1, 2, 3]).get_bytes 2 = ([1, 2], ⟨⟨[1, 2, 3], 2⟩⟩) := by
  refine ⟨by decide, ?_, ?_, ?_, ?_⟩
  · exact (((get_bytes_padding (Message.ofBytes [1, 2, 3]) 10 (by decide)).1
      (by decide) (by decide)).1).trans (by decide)
  · exact ((get_bytes_padding (Message.ofBytes [1, 2, 3]) 10 (by decide)).1
      (by decide) (by decide)).2
  · exact (((get_bytes_padding (Message.ofBytes [1, 2, 3]) 1048576 (by decide)).2.1
      (by decide) (by decide))).trans (by decide)
  · exact (((get_bytes_padding (Message.ofBytes [1, 2, 3]) 2 (by decide)).2.2
      (by decide))).trans (by decide)

/-- C2 counterexample: the claim that every `add_*` appends at the current
end of the content and overwrites nothing fails: the model of `BytesIO`
has a single shared stream position, so on a freshly parsed message
(position 0) `add_byte` overwrites the first stored byte instead of
appending. -/
theorem add_at_cursor_counterexample :
    ((Message.ofBytes [97, 98, 99]).add_byte [90]).asbytes = [90, 98, 99]
    ∧ ¬ ((Message.ofBytes [97, 98, 99]).add_byte [90]).asbytes
        = (Message.ofBytes [97, 98, 99]).asbytes ++ [90] := by
  decide

/-- C2 amended: provided the stream position is at the end of the content
(as it is for a buffer built only by `add_*` calls from an empty message,
or after the whole content has been read), every `add_*` operation appends
its encoding at the current end of the content, preserves every previously
stored byte, and leaves the position at the new end. -/
theorem add_appends_at_end (m : Message)
    (hpos : m.packet.pos = m.packet.data.length)
    (b c : Bytes) (bo : Bool) (n n64 z : Nat) (s : Bytes) (l : List Bytes) :
    m.add_bytes b = ⟨⟨m.asbytes ++ b, (m.asbytes ++ b).length⟩⟩
    ∧ m.add_byte c = ⟨⟨m.asbytes ++ c, (m.asbytes ++ c).length⟩⟩
    ∧ m.add_boolean bo
        = ⟨⟨m.asbytes ++ [if bo then one_byte else zero_byte],
            (m.asbytes ++ [if bo then one_byte else zero_byte]).length⟩⟩
    ∧ m.add_int n = ⟨⟨m.asbytes ++ util.pack32 n, (m.asbytes ++ util.pack32 n).length⟩⟩
    ∧ m.add_adaptive_int n
        = ⟨⟨m.asbytes ++ (if Message.big_int ≤ n then
              max_byte :: (util.pack32 (util.deflate_long n).length
                ++ util.deflate_long n)
             else util.pack32 n),
            (m.asbytes ++ (if Message.big_int ≤ n then
              max_byte :: (util.pack32 (util.deflate_long n).length
                ++ util.deflate_long n)
             else util.pack32 n)).length⟩⟩
    ∧ m.add_int64 n64
        = ⟨⟨m.asbytes ++ util.pack64 n64, (m.asbytes ++ util.pack64 n64).length⟩⟩
    ∧ m.add_mpint z
        = ⟨⟨m.asbytes ++ (util.pack32 (util.deflate_long z).length
              ++ util.deflate_long z),
            (m.asbytes ++ (util.pack32 (util.deflate_long z).length
              ++ util.deflate_long z)).length⟩⟩
    ∧ m.add_string s
        = ⟨⟨m.asbytes ++ (util.pack32 s.length ++ s),
            (m.asbytes ++ (util.pack32 s.length ++ s)).length⟩⟩
    ∧ m.add_list l
        = ⟨⟨m.asbytes ++ (util.pack32 (util.joinComma l).length ++ util.joinComma l),
            (m.asbytes ++ (util.pack32 (util.joinComma l).length
              ++ util.joinComma l)).length⟩⟩ := by
  refine ⟨mk_write_at_end m b hpos, mk_write_at_end m c hpos, ?_, ?_, ?_, ?_, ?_, ?_, ?_⟩
  · rw [add_boolean_eq]
    exact mk_write_at_end m _ hpos
  · exact mk_write_at_end m _ hpos
  · rw [add_adaptive_int_eq]
    exact mk_write_at_end m _ hpos
  · exact mk_write_at_end m _ hpos
  · rw [add_mpint_eq]
    exact mk_write_at_end m _ hpos
  · rw [add_string_eq]
    exact mk_write_at_end m _ hpos
  · rw [add_list_eq]
    exact mk_write_at_end m _ hpos

theorem add_appends_at_end_witness :
    Message.empty.packet.pos = Message.empty.packet.data.length
    ∧ Message.empty.add_bytes [7]
        = ⟨⟨Message.empty.asbytes ++ [7], (Message.empty.asbytes ++ [7]).length⟩⟩
    ∧ Message.empty.add_mpint 0
        = ⟨⟨Message.empty.asbytes ++ (util.pack32 (util.deflate_long 0).length
              ++ util.deflate_long 0),
            (Message.empty.asbytes ++ (util.pack32 (util.deflate_long 0).length
              ++ util.deflate_long 0)).length⟩⟩ := by
  have h := add_appends_at_end Message.empty (by decide) [7] [8] true 5 6 0 [9] []
  exact ⟨by decide, h.1, h.2.2.2.2.2.2.1⟩

/-- C3: for every non-negative `n` (whose mpint encoding fits the 4-byte
length prefix `struct.pack` requires), `add_adaptive_int` then
`get_adaptive_int` from the start of the produced bytes returns `n`; the
encoding is the plain 4-byte big-endian form exactly when
`n < 0xff000000`; and otherwise it is the marker byte `0xff` followed by
the length-prefixed mpint encoding of `n`. -/
theorem adaptive_int_round_trip (n : Nat)
    (hL : (util.deflate_long n).length < 2 ^ 32) :
    ((Message.ofBytes (Message.empty.add_adaptive_int n).asbytes).get_adaptive_int).1
      = n
    ∧ ((Message.empty.add_adaptive_int n).asbytes = util.pack32 n
        ↔ n < Message.big_int)
    ∧ (Message.big_int ≤ n →
        (Message.empty.add_adaptive_int n).asbytes
          = max_byte :: (util.pack32 (util.deflate_long n).length
              ++ util.deflate_long n)) := by
  have hbig : Message.big_int = 0xff000000 := rfl
  have henc : (Message.empty.add_adaptive_int n).asbytes
      = (if Message.big_int ≤ n then
          max_byte :: (util.pack32 (util.deflate_long n).length ++ util.deflate_long n)
         else util.pack32 n) := by
    rw [add_adaptive_int_eq]
    simp [empty, asbytes, ByteStream.mkStream, ByteStream.write, ByteStream.getvalue]
  by_cases h : Message.big_int ≤ n
  · rw [henc, if_pos h]
    refine ⟨?_, ⟨?_, ?_⟩, fun _ => rfl⟩
    · rw [get_adaptive_marker (util.deflate_long n) hL]
      simpa using util.inflate_long_deflate_long n
    · intro heq
      exfalso
      have hlen := congrArg List.length heq
      simp [util.pack32] at hlen
    · intro h2
      have hcontra : ¬ n < Message.big_int := by
        rw [hbig] at h ⊢
        omega
      exact absurd h2 hcontra
  · rw [henc, if_neg h]
    refine ⟨?_, ⟨fun _ => ?_, fun _ => rfl⟩, fun hge => absurd hge h⟩
    · rw [get_adaptive_plain n (by rw [hbig] at h; omega)]
    · rw [hbig] at h ⊢
      omega

theorem adaptive_int_round_trip_witness :
    ((util.deflate_long 0xfeffffff).length < 2 ^ 32
      ∧ (((Message.ofBytes
            (Message.empty.add_adaptive_int 0xfeffffff).asbytes).get_adaptive_int).1
          = 0xfeffffff
        ∧ ((Message.empty.add_adaptive_int 0xfeffffff).asbytes
            = util.pack32 0xfeffffff ↔ 0xfeffffff < Message.big_int)))
    ∧ ((util.deflate_long 0xff000000).length < 2 ^ 32
      ∧ (((Message.ofBytes
            (Message.empty.add_adaptive_int 0xff000000).asbytes).get_adaptive_int).1
          = 0xff000000
        ∧ ((Message.empty.add_adaptive_int 0xff000000).asbytes
            = util.pack32 0xff000000 ↔ 0xff000000 < Message.big_int)
        ∧ (Message.empty.add_adaptive_int 0xff000000).asbytes
            = max_byte :: (util.pack32 (util.deflate_long 0xff000000).length
                ++ util.deflate_long 0xff000000))) := by
  have h1 := adaptive_int_round_trip 0xfeffffff (by decide)
  have h2 := adaptive_int_round_trip 0xff000000 (by decide)
  exact ⟨⟨by decide, h1.1, h1.2.1⟩,
    ⟨by decide, h2.1, h2.2.1, h2.2.2 (by decide)⟩⟩

/-- C4: at any cursor position (within the content, as the data model
guarantees), `get_so_far()` concatenated with `get_remainder()` equals the
full content, and neither call changes the message state. -/
theorem so_far_remainder (m : Message)
    (hpos : m.packet.pos ≤ m.packet.data.length) :
    m.get_so_far.1 ++ m.get_remainder.1 = m.asbytes
    ∧ m.get_so_far.2 = m ∧ m.get_remainder.2 = m := by
  rw [get_so_far_spec m hpos, get_remainder_spec m]
  exact ⟨List.take_append_drop _ _, rfl, rfl⟩

theorem so_far_remainder_witness :
    (Message.mk ⟨[1, 2, 3, 4], 2⟩).packet.pos
        ≤ (Message.mk ⟨[1, 2, 3, 4], 2⟩).packet.data.length
    ∧ (Message.mk ⟨[1, 2, 3, 4], 2⟩).get_so_far.1
          ++ (Message.mk ⟨[1, 2, 3, 4], 2⟩).get_remainder.1
        = (Message.mk ⟨[1, 2, 3, 4], 2⟩).asbytes
    ∧ (Message.mk ⟨[1, 2, 3, 4], 2⟩).get_so_far.2 = Message.mk ⟨[1, 2, 3, 4], 2⟩
    ∧ (Message.mk ⟨[1, 2, 3, 4], 2⟩).get_remainder.2 = Message.mk ⟨[1, 2, 3, 4], 2⟩ := by
  have h := so_far_remainder (Message.mk ⟨[1, 2, 3, 4], 2⟩) (by decide)
  exact ⟨by decide, h.1, h.2.1, h.2.2⟩

/-- C5: encoding the two-element list whose first element contains a
literal comma (`["a,b", "c"]` as byte lists) and decoding the result
yields the three-element list `["a", "b", "c"]`: commas are not escaped
and the round trip is lossy. -/
theorem list_comma_lossy :
    ((Message.ofBytes
        ((Message.empty.add_list [[97, 44, 98], [99]]).asbytes)).get_list).1
      = [[97], [98], [99]]
    ∧ [[97], [98], [99]] ≠ ([[97, 44, 98], [99]] : List Bytes) := by
  decide

/-- C6: with `deflate_long 0 = []` and `inflate_long [] = 0` (the
collaborator contract), `add_mpint 0` emits exactly `00 00 00 00` and
`get_mpint` on those bytes returns 0. -/
theorem mpint_zero_round_trip :
    util.deflate_long 0 = []
    ∧ (Message.empty.add_mpint 0).asbytes = [0, 0, 0, 0]
    ∧ util.inflate_long [] = 0
    ∧ ((Message.ofBytes [0, 0, 0, 0]).get_mpint).1 = 0 := by
  decide

/-- C7: the generic `_add` dispatch follows the fixed precedence boolean,
then integer (encoded by the adaptive-int rule), then list, then string;
in particular an integer is always encoded via `add_adaptive_int`: above
the threshold the bytes differ from the fixed-width encoding, and below it
(for positive values) they differ from the mpint encoding. -/
theorem add_dispatch (m : Message) (b : Bool) (n : Nat) (l : List Bytes) (s : Bytes) :
    m._add (.bool b) = m.add_boolean b
    ∧ m._add (.int n) = m.add_adaptive_int n
    ∧ m._add (.list l) = m.add_list l
    ∧ m._add (.str s) = m.add_string s
    ∧ (Message.big_int ≤ n →
        (Message.empty._add (.int n)).asbytes
          = max_byte :: (util.pack32 (util.deflate_long n).length
              ++ util.deflate_long n)
        ∧ (Message.empty._add (.int n)).asbytes ≠ util.pack32 n)
    ∧ (0 < n → n < Message.big_int →
        (Message.empty._add (.int n)).asbytes = util.pack32 n
        ∧ (Message.empty._add (.int n)).asbytes
            ≠ (Message.empty.add_mpint n).asbytes) := by
  have henc : (Message.empty.add_adaptive_int n).asbytes
      = (if Message.big_int ≤ n then
          max_byte :: (util.pack32 (util.deflate_long n).length ++ util.deflate_long n)
         else util.pack32 n) := by
    rw [add_adaptive_int_eq]
    simp [empty, asbytes, ByteStream.mkStream, ByteStream.write, ByteStream.getvalue]
  have hmp : (Message.empty.add_mpint n).asbytes
      = util.pack32 (util.deflate_long n).length ++ util.deflate_long n := by
    rw [add_mpint_eq]
    simp [empty, asbytes, ByteStream.mkStream, ByteStream.write, ByteStream.getvalue]
  refine ⟨rfl, rfl, rfl, rfl, fun h => ?_, fun h0 hlt => ?_⟩
  · have hb : (Message.empty._add (.int n)).asbytes
        = max_byte :: (util.pack32 (util.deflate_long n).length
            ++ util.deflate_long n) := by
      show (Message.empty.add_adaptive_int n).asbytes = _
      rw [henc, if_pos h]
    refine ⟨hb, ?_⟩
    rw [hb]
    intro heq
    have hlen := congrArg List.length heq
    simp [util.pack32] at hlen
  · have hb : (Message.empty._add (.int n)).asbytes = util.pack32 n := by
      show (Message.empty.add_adaptive_int n).asbytes = _
      rw [henc, if_neg (by omega)]
    refine ⟨hb, ?_⟩
    rw [hb, hmp]
    intro heq
    have hlen := congrArg List.length heq
    rw [util.pack32_length, List.length_append, util.pack32_length] at hlen
    have hnn := deflate_long_ne_nil n h0
    have hlp : 0 < (util.deflate_long n).length := List.length_pos.mpr hnn
    omega

theorem add_dispatch_witness :
    (Message.empty._add (.int 0xff000000)).asbytes ≠ util.pack32 0xff000000
    ∧ (Message.empty._add (.int 5)).asbytes = util.pack32 5
    ∧ (Message.empty._add (.int 5)).asbytes ≠ (Message.empty.add_mpint 5).asbytes
    ∧ Message.empty._add (.bool true) = Message.empty.add_boolean true := by
  have h1 := add_dispatch Message.empty true 0xff000000 [] []
  have h2 := add_dispatch Message.empty true 5 [] []
  exact ⟨(h1.2.2.2.2.1 (by decide)).2, (h2.2.2.2.2.2 (by decide) (by decide)).1,
    (h2.2.2.2.2.2 (by decide) (by decide)).2, h1.1⟩

/-- C8: `get_binary` is extensionally equal to `get_string`: on every
message state it returns the same value and the same final state. -/
theorem get_binary_eq_get_string (m : Message) : m.get_binary = m.get_string := rfl

/-- C9: decoding a list from a zero-length string payload returns the
one-element list containing the empty string, not the empty list; hence
`add_list []` followed by `get_list` yields `[""]` and the empty list does
not round-trip. -/
theorem get_list_empty_payload :
    (Message.empty.add_list []).asbytes = [0, 0, 0, 0]
    ∧ ((Message.ofBytes ((Message.empty.add_list []).asbytes)).get_list).1 = [[]]
    ∧ ([[]] : List Bytes) ≠ [] := by
  decide

/-- C10: every `add_*` operation returns the mutated buffer itself — the
single message state obtained by writing its full encoding into the
underlying stream — so encode calls chain fluently. -/
theorem add_ops_return_self (m : Message) (b c : Bytes) (bo : Bool)
    (n n64 z : Nat) (s : Bytes) (l : List Bytes) :
    m.add_bytes b = ⟨m.packet.write b⟩
    ∧ m.add_byte c = ⟨m.packet.write c⟩
    ∧ m.add_boolean bo = ⟨m.packet.write [if bo then one_byte else zero_byte]⟩
    ∧ m.add_int n = ⟨m.packet.write (util.pack32 n)⟩
    ∧ m.add_adaptive_int n
        = ⟨m.packet.write (if Message.big_int ≤ n then
            max_byte :: (util.pack32 (util.deflate_long n).length
              ++ util.deflate_long n)
           else util.pack32 n)⟩
    ∧ m.add_int64 n64 = ⟨m.packet.write (util.pack64 n64)⟩
    ∧ m.add_mpint z
        = ⟨m.packet.write (util.pack32 (util.deflate_long z).length
            ++ util.deflate_long z)⟩
    ∧ m.add_string s = ⟨m.packet.write (util.pack32 s.length ++ s)⟩
    ∧ m.add_list l
        = ⟨m.packet.write (util.pack32 (util.joinComma l).length
            ++ util.joinComma l)⟩ :=
  ⟨rfl, rfl, add_boolean_eq m bo, rfl, add_adaptive_int_eq m n, rfl,
   add_mpint_eq m z, add_string_eq m s, add_list_eq m l⟩

end Message

end Paramiko
